import Mathlib

/-!
Verification of the configuration merge-and-persist operation implemented in
`examples/setup_claude_desktop.py` (function `create_claude_config`).

The embedding models:
* JSON documents (`Json`), with objects as insertion-ordered association
  lists, mirroring Python `dict` semantics (assignment to an existing key
  replaces the value in place, a new key is appended).  JSON numbers are
  modelled as integers; floating-point literals are outside the shallow
  embedding.
* the Python dynamic operations used by the script (`key in obj`,
  `obj[key] = v`, `obj[key]`, `obj.update(...)`), each raising the same
  class of exception the interpreter would raise on a non-dict receiver;
* serialization, modelled from the spec: UTF-8 encoded JSON with 2-space
  indentation (the encoder itself is the trusted standard library, absent
  from the repository sources);
* parsing, modelled from the spec: a JSON reader used only through the
  success/failure distinction the script observes via
  `json.JSONDecodeError`.
-/

/-- JSON values.  Objects are insertion-ordered association lists, the
representation produced by Python's `json.load` (a `dict`). -/
inductive Json : Type where
  | null : Json
  | bool : Bool → Json
  | num : Int → Json
  | str : String → Json
  | arr : List Json → Json
  | obj : List (String × Json) → Json

/-- Python `someString == jsonValue`: true exactly when the value is an
equal string (a string never equals a number, list, dict, bool or None). -/
def strEqJson (key : String) : Json → Bool
  | Json.str s => s == key
  | _ => false

/-- Python exception classes that the script can raise or catch. -/
inductive PyErr : Type where
  | osError : PyErr
  | jsonDecodeError : PyErr
  | typeError : PyErr
  | attributeError : PyErr
  | keyError : PyErr
deriving DecidableEq

/-- First value bound to a key in an association list (Python dict lookup;
well-formed dicts have no duplicate keys, so "first" is "the" binding). -/
def lookupKV : List (String × Json) → String → Option Json
  | [], _ => none
  | (k', v) :: tl, k => if k' = k then some v else lookupKV tl k

/-- Key membership test (Python `key in dict`). -/
def hasKey : List (String × Json) → String → Bool
  | [], _ => false
  | (k', _) :: tl, k => k' = k || hasKey tl k

/-- Python `dict[k] = v`: replace the binding in place if the key is
present, otherwise append it. -/
def insertKey : List (String × Json) → String → Json → List (String × Json)
  | [], k, v => [(k, v)]
  | (k', v') :: tl, k, v =>
      if k' = k then (k, v) :: tl else (k', v') :: insertKey tl k v

/-- Python `base.update(new)`: assign each binding of `new` into `base`,
in order. -/
def updateEntries (base new : List (String × Json)) : List (String × Json) :=
  List.foldl (fun acc kv => insertKey acc kv.1 kv.2) base new

/-- Keys are pairwise distinct (invariant of every Python dict). -/
def keysND : List (String × Json) → Bool
  | [] => true
  | (k, _) :: tl => !(hasKey tl k) && keysND tl

/-- The two server entries the script installs (the value of the
`"mcpServers"` key of the `config` template literal in the source). -/
def newEntries : List (String × Json) :=
  [ ("authentik-full", Json.obj
      [ ("command", Json.str "uvx"),
        ("args", Json.arr [Json.str "authentik-mcp"]),
        ("env", Json.obj
          [ ("AUTHENTIK_BASE_URL", Json.str "https://your-authentik-instance.com"),
            ("AUTHENTIK_TOKEN", Json.str "your-api-token-here") ]) ]),
    ("authentik-diag", Json.obj
      [ ("command", Json.str "uvx"),
        ("args", Json.arr [Json.str "authentik-diag-mcp"]),
        ("env", Json.obj
          [ ("AUTHENTIK_BASE_URL", Json.str "https://your-authentik-instance.com"),
            ("AUTHENTIK_TOKEN", Json.str "your-readonly-token-here") ]) ]) ]

/-- The configuration template literal `config` of the source. -/
def defaultConfig : Json :=
  Json.obj [("mcpServers", Json.obj newEntries)]

/-- Python `key in value` for the dynamic value a JSON document can be:
key membership for a dict, element membership for a list, substring test
for a string, `TypeError` (not iterable) otherwise. -/
def containsSub : List Char → List Char → Bool
  | _, [] => false
  | needle, c :: tl => List.isPrefixOf needle (c :: tl) || containsSub needle tl

def pyContains (key : String) : Json → Except PyErr Bool
  | Json.obj kvs => Except.ok (hasKey kvs key)
  | Json.arr xs => Except.ok (xs.any (strEqJson key))
  | Json.str s => Except.ok (List.isPrefixOf key.data s.data || containsSub key.data s.data)
  | _ => Except.error PyErr.typeError

/-- Python `value[key] = x` (string subscript): only dicts support it. -/
def pySetItem (v : Json) (key : String) (x : Json) : Except PyErr Json :=
  match v with
  | Json.obj kvs => Except.ok (Json.obj (insertKey kvs key x))
  | _ => Except.error PyErr.typeError

/-- Python `value[key]` (string subscript): dict lookup, `KeyError` when
absent, `TypeError` on any non-dict. -/
def pyGetItem (v : Json) (key : String) : Except PyErr Json :=
  match v with
  | Json.obj kvs =>
      match lookupKV kvs key with
      | some x => Except.ok x
      | none => Except.error PyErr.keyError
  | _ => Except.error PyErr.typeError

/-- Python `value.update(new)`: only dicts have an `update` attribute. -/
def pyUpdate (v : Json) (new : List (String × Json)) : Except PyErr Json :=
  match v with
  | Json.obj kvs => Except.ok (Json.obj (updateEntries kvs new))
  | _ => Except.error PyErr.attributeError

/-- The merge step of `create_claude_config`, applied to a successfully
parsed existing configuration:

    if "mcpServers" not in existing_config:
        existing_config["mcpServers"] = {}
    existing_config["mcpServers"].update(config["mcpServers"])
    config = existing_config
-/
def mergeConfig (existing : Json) : Except PyErr Json :=
  match pyContains "mcpServers" existing with
  | Except.error e => Except.error e
  | Except.ok b =>
    match (if b then Except.ok existing else pySetItem existing "mcpServers" (Json.obj [])) with
    | Except.error e => Except.error e
    | Except.ok cfg =>
      match pyGetItem cfg "mcpServers" with
      | Except.error e => Except.error e
      | Except.ok servers =>
        match pyUpdate servers newEntries with
        | Except.error e => Except.error e
        | Except.ok merged => pySetItem cfg "mcpServers" merged

/-- The double-quote character. -/
abbrev quoteC : Char := Char.ofNat 34

/-- The backslash character. -/
abbrev backC : Char := Char.ofNat 92

/-- JSON whitespace. -/
def isWsC (c : Char) : Bool :=
  c = ' ' || c = '\n' || c = '\t' || c = '\r'

/-- Decimal digit test. -/
def isDigitC (c : Char) : Bool :=
  48 ≤ c.toNat && c.toNat ≤ 57

/-- Value of a decimal digit character. -/
def digVal (c : Char) : Nat := c.toNat - 48

/-- Hexadecimal digit for a value below 16 (lower case, as Python emits). -/
def hexDigitC (n : Nat) : Char :=
  if n < 10 then Char.ofNat (48 + n) else Char.ofNat (87 + n)

/-- Value of a hexadecimal digit character, `none` on anything else. -/
def hexValC (c : Char) : Option Nat :=
  if 48 ≤ c.toNat && c.toNat ≤ 57 then some (c.toNat - 48)
  else if 97 ≤ c.toNat && c.toNat ≤ 102 then some (c.toNat - 87)
  else if 65 ≤ c.toNat && c.toNat ≤ 70 then some (c.toNat - 55)
  else none

/-- Decimal digits of a natural number, most significant first. -/
def natChars (m : Nat) : List Char :=
  if m = 0 then [ '0' ] else ((Nat.digits 10 m).reverse).map Nat.digitChar

/-- Decimal representation of an integer. -/
def intChars (n : Int) : List Char :=
  if n < 0 then '-' :: natChars n.natAbs else natChars n.toNat

/-- Escape one character of a JSON string: quote and backslash get a
backslash escape, control characters a `\u00XX` escape, everything else is
emitted verbatim (UTF-8 output, per the spec's file-format contract). -/
def escChar (c : Char) : List Char :=
  if c = quoteC then [backC, quoteC]
  else if c = backC then [backC, backC]
  else if c.toNat < 32 then
    [backC, 'u', '0', '0', hexDigitC (c.toNat / 16), hexDigitC (c.toNat % 16)]
  else [c]

/-- Escape a whole string body. -/
def escapeStr : List Char → List Char
  | [] => []
  | c :: tl => escChar c ++ escapeStr tl

/-- An indentation run of spaces. -/
def spaces (n : Nat) : List Char := List.replicate n ' '

-- Serializer, modelled from the spec: indented JSON, 2-space indentation,
-- objects and arrays spread over lines (the layout `json.dump(cfg, f,
-- indent=2)` produces), keys in insertion order.
mutual

def serVal (ind : Nat) : Json → List Char
  | Json.null => [ 'n', 'u', 'l', 'l' ]
  | Json.bool true => [ 't', 'r', 'u', 'e' ]
  | Json.bool false => [ 'f', 'a', 'l', 's', 'e' ]
  | Json.num n => intChars n
  | Json.str s => quoteC :: escapeStr s.data ++ [quoteC]
  | Json.arr [] => [ '[', ']' ]
  | Json.arr (x :: tl) =>
      '[' :: '\n' :: serElems (ind + 2) (x :: tl) ++ '\n' :: spaces ind ++ [ ']' ]
  | Json.obj [] => [ '{', '}' ]
  | Json.obj (kv :: tl) =>
      '{' :: '\n' :: serMembers (ind + 2) (kv :: tl) ++ '\n' :: spaces ind ++ [ '}' ]

def serMembers (ind : Nat) : List (String × Json) → List Char
  | [] => []
  | [(k, v)] =>
      spaces ind ++ quoteC :: escapeStr k.data ++ quoteC :: ':' :: ' ' :: serVal ind v
  | (k, v) :: kv :: tl =>
      spaces ind ++ quoteC :: escapeStr k.data ++ quoteC :: ':' :: ' ' :: serVal ind v
        ++ ',' :: '\n' :: serMembers ind (kv :: tl)

def serElems (ind : Nat) : List Json → List Char
  | [] => []
  | [x] => spaces ind ++ serVal ind x
  | x :: y :: tl => spaces ind ++ serVal ind x ++ ',' :: '\n' :: serElems ind (y :: tl)

end

/-- Serialize a configuration to the file text `json.dump(cfg, f, indent=2)`
writes. -/
def serialize (cfg : Json) : String := String.mk (serVal 0 cfg)

/-- Drop leading JSON whitespace. -/
def skipWs : List Char → List Char
  | [] => []
  | c :: tl => if isWsC c then skipWs tl else c :: tl

/-- Parse the body of a JSON string after the opening quote, returning the
decoded characters and the remainder after the closing quote. -/
def parseStringBody : List Char → Option (List Char × List Char)
  | [] => none
  | c :: tl =>
    if c = quoteC then some ([], tl)
    else if c = backC then
      match tl with
      | [] => none
      | e :: tl₂ =>
        if e = 'u' then
          match tl₂ with
          | h₁ :: h₂ :: h₃ :: h₄ :: tl₃ =>
            match hexValC h₁, hexValC h₂, hexValC h₃, hexValC h₄ with
            | some a, some b, some u, some d =>
                (parseStringBody tl₃).map
                  (fun p => (Char.ofNat (a * 4096 + b * 256 + u * 16 + d) :: p.1, p.2))
            | _, _, _, _ => none
          | _ => none
        else
          match
            (if e = quoteC then some quoteC
             else if e = backC then some backC
             else if e = '/' then some '/'
             else if e = 'n' then some '\n'
             else if e = 't' then some '\t'
             else if e = 'r' then some '\r'
             else if e = 'b' then some (Char.ofNat 8)
             else if e = 'f' then some (Char.ofNat 12)
             else none) with
          | some u => (parseStringBody tl₂).map (fun p => (u :: p.1, p.2))
          | none => none
    else (parseStringBody tl).map (fun p => (c :: p.1, p.2))

/-- Parse a nonempty run of decimal digits into a natural number. -/
def parseNatChars (input : List Char) : Option (Nat × List Char) :=
  match input.takeWhile isDigitC with
  | [] => none
  | ds => some (ds.foldl (fun a c => a * 10 + digVal c) 0, input.dropWhile isDigitC)

/-- Python dict construction from a parsed member list: bindings are
assigned in order, so a duplicated key keeps its first position with its
last value. -/
def dedupKeys (kvs : List (String × Json)) : List (String × Json) :=
  List.foldl (fun acc kv => insertKey acc kv.1 kv.2) [] kvs

-- Recursive-descent JSON reader, modelled from the spec.  `fuel` bounds
-- the recursion depth; `parseJson` supplies more fuel than any input can
-- consume, so the bound is never the reason an input is rejected.
mutual

def parseValue : Nat → List Char → Option (Json × List Char)
  | 0, _ => none
  | fuel + 1, input =>
    match skipWs input with
    | [] => none
    | c :: r =>
      if c = '{' then
        (parseMembers fuel r).map (fun p => (Json.obj (dedupKeys p.1), p.2))
      else if c = '[' then
        (parseElements fuel r).map (fun p => (Json.arr p.1, p.2))
      else if c = quoteC then
        (parseStringBody r).map (fun p => (Json.str (String.mk p.1), p.2))
      else if c = 'n' then
        match r with
        | 'u' :: 'l' :: 'l' :: r₂ => some (Json.null, r₂)
        | _ => none
      else if c = 't' then
        match r with
        | 'r' :: 'u' :: 'e' :: r₂ => some (Json.bool true, r₂)
        | _ => none
      else if c = 'f' then
        match r with
        | 'a' :: 'l' :: 's' :: 'e' :: r₂ => some (Json.bool false, r₂)
        | _ => none
      else if c = '-' then
        (parseNatChars r).map (fun p => (Json.num (-(p.1 : Int)), p.2))
      else if isDigitC c then
        (parseNatChars (c :: r)).map (fun p => (Json.num (p.1 : Int), p.2))
      else none

def parseMembers : Nat → List Char → Option (List (String × Json) × List Char)
  | 0, _ => none
  | fuel + 1, input =>
    match skipWs input with
    | [] => none
    | c :: r =>
      if c = '}' then some ([], r)
      else if c = quoteC then
        match parseStringBody r with
        | none => none
        | some (kcs, r₁) =>
          match skipWs r₁ with
          | ':' :: r₂ =>
            match parseValue fuel r₂ with
            | none => none
            | some (v, r₃) =>
              match skipWs r₃ with
              | ',' :: r₄ =>
                match parseMembers fuel r₄ with
                | some (tl, r₅) => some ((String.mk kcs, v) :: tl, r₅)
                | none => none
              | '}' :: r₄ => some ([(String.mk kcs, v)], r₄)
              | _ => none
          | _ => none
      else none

def parseElements : Nat → List Char → Option (List Json × List Char)
  | 0, _ => none
  | fuel + 1, input =>
    match skipWs input with
    | [] => none
    | c :: r =>
      if c = ']' then some ([], r)
      else
        match parseValue fuel (c :: r) with
        | none => none
        | some (v, r₁) =>
          match skipWs r₁ with
          | ',' :: r₂ =>
            match parseElements fuel r₂ with
            | some (tl, r₃) => some (v :: tl, r₃)
            | none => none
          | ']' :: r₂ => some ([v], r₂)
          | _ => none

end

/-- Parse a whole document the way `json.load` does: one value, then only
trailing whitespace. -/
def parseJson (s : String) : Option Json :=
  match parseValue (s.data.length + 1) s.data with
  | some (j, rest) => if skipWs rest = [] then some j else none
  | none => none

/-- Filesystem state visible to the script: the target file's content (or
its absence), plus fault switches for the three filesystem operations the
script performs (`mkdir`, the read `open`, the write `open`/`dump`); a set
switch makes that operation raise `OSError`. -/
structure FS : Type where
  file : Option String
  mkdirFault : Bool
  readFault : Bool
  writeFault : Bool

/-- The configuration value `create_claude_config` holds in `config` when
it reaches the write, with a flag recording whether the invalid-JSON
warning was printed.  Mirrors the source:

    config = {template}
    if config_file.exists():
        try:
            existing_config = json.load(open(config_file))
            if "mcpServers" not in existing_config: ...
            existing_config["mcpServers"].update(config["mcpServers"])
            config = existing_config
        except json.JSONDecodeError:
            print("Warning: ...")

Only `json.JSONDecodeError` is caught; every other exception of the try
block propagates. -/
def mergedConfig (fs : FS) : Except PyErr (Json × Bool) :=
  match fs.file with
  | none => Except.ok (defaultConfig, false)
  | some content =>
    if fs.readFault then Except.error PyErr.osError
    else
      match parseJson content with
      | none => Except.ok (defaultConfig, true)
      | some existing =>
        match mergeConfig existing with
        | Except.error e => Except.error e
        | Except.ok merged => Except.ok (merged, false)

/-- The whole operation of `create_claude_config` on the filesystem state:
directory creation, optional read/merge, then the write.  On success the
result is the file text written and the warning flag. -/
def createClaudeConfig (fs : FS) : Except PyErr (String × Bool) :=
  if fs.mkdirFault then Except.error PyErr.osError
  else
    match mergedConfig fs with
    | Except.error e => Except.error e
    | Except.ok (cfg, warned) =>
      if fs.writeFault then Except.error PyErr.osError
      else Except.ok (serialize cfg, warned)

/-- Content of the target file after the run: the text written on success,
the untouched prior content when an exception aborts the run before the
write. -/
def finalFile (fs : FS) : Option String :=
  match createClaudeConfig fs with
  | Except.ok (content, _) => some content
  | Except.error _ => fs.file

/-- A filesystem state with no injected faults. -/
def plainFS (file : Option String) : FS :=
  { file := file, mkdirFault := false, readFault := false, writeFault := false }

/-! ### Association-list lemmas (Python dict semantics) -/

theorem lookupKV_insertKey_self (m : List (String × Json)) (k : String) (v : Json) :
    lookupKV (insertKey m k v) k = some v := by
  induction m with
  | nil => simp [insertKey, lookupKV]
  | cons kv tl ih =>
    obtain ⟨k', v'⟩ := kv
    by_cases h : k' = k
    · simp [insertKey, h, lookupKV]
    · simp [insertKey, h, lookupKV, ih]

theorem lookupKV_insertKey_ne (m : List (String × Json)) (k k' : String) (v : Json)
    (h : k' ≠ k) : lookupKV (insertKey m k v) k' = lookupKV m k' := by
  induction m with
  | nil => simp [insertKey, lookupKV, Ne.symm h]
  | cons kv tl ih =>
    obtain ⟨k₀, v₀⟩ := kv
    by_cases h₀ : k₀ = k
    · subst h₀
      simp [insertKey, lookupKV, Ne.symm h]
    · simp [insertKey, h₀, lookupKV, ih]

theorem hasKey_iff_lookupKV (m : List (String × Json)) (k : String) :
    hasKey m k = (lookupKV m k).isSome := by
  induction m with
  | nil => rfl
  | cons kv tl ih =>
    obtain ⟨k₀, v₀⟩ := kv
    by_cases h₀ : k₀ = k <;> simp [hasKey, lookupKV, h₀, ih]

theorem insertKey_of_not_hasKey (m : List (String × Json)) (k : String) (v : Json)
    (h : hasKey m k = false) : insertKey m k v = m ++ [(k, v)] := by
  induction m with
  | nil => rfl
  | cons kv tl ih =>
    obtain ⟨k₀, v₀⟩ := kv
    simp only [hasKey, Bool.or_eq_false_iff] at h
    simp only [insertKey, decide_eq_false_iff_not] at *
    simp [h.1, ih h.2]

theorem hasKey_append (m₁ m₂ : List (String × Json)) (k : String) :
    hasKey (m₁ ++ m₂) k = (hasKey m₁ k || hasKey m₂ k) := by
  induction m₁ with
  | nil => simp [hasKey]
  | cons kv tl ih =>
    obtain ⟨k₀, v₀⟩ := kv
    simp [hasKey, ih, Bool.or_assoc]

theorem lookupKV_append_left (m₁ m₂ : List (String × Json)) (k : String) (v : Json)
    (h : lookupKV m₁ k = some v) : lookupKV (m₁ ++ m₂) k = some v := by
  induction m₁ with
  | nil => simp [lookupKV] at h
  | cons kv tl ih =>
    obtain ⟨k₀, v₀⟩ := kv
    by_cases h₀ : k₀ = k <;> simp_all [lookupKV]

theorem hasKey_insertKey (m : List (String × Json)) (k k' : String) (v : Json) :
    hasKey (insertKey m k v) k' = (k = k' || hasKey m k') := by
  induction m with
  | nil => simp [insertKey, hasKey]
  | cons kv tl ih =>
    obtain ⟨k₀, v₀⟩ := kv
    by_cases h₀ : k₀ = k
    · subst h₀
      by_cases h₁ : k₀ = k' <;> simp [insertKey, hasKey, h₁]
    · simp only [insertKey, h₀, if_false, hasKey, ih, decide_eq_true_eq]
      by_cases h₁ : k₀ = k' <;> by_cases h₂ : k = k' <;> simp [h₁, h₂]

theorem keysND_insertKey (m : List (String × Json)) (k : String) (v : Json)
    (h : keysND m = true) : keysND (insertKey m k v) = true := by
  induction m with
  | nil => simp [insertKey, keysND, hasKey]
  | cons kv tl ih =>
    obtain ⟨k₀, v₀⟩ := kv
    simp only [keysND, Bool.and_eq_true, Bool.not_eq_true'] at h
    by_cases h₀ : k₀ = k
    · subst h₀
      simp [insertKey, keysND, h.1, h.2]
    · simp only [insertKey, h₀, if_false, keysND, Bool.and_eq_true, Bool.not_eq_true']
      refine ⟨?_, ih h.2⟩
      rw [hasKey_insertKey]
      simp [h.1, Ne.symm h₀]

theorem keysND_updateEntries (base new : List (String × Json))
    (h : keysND base = true) : keysND (updateEntries base new) = true := by
  induction new generalizing base with
  | nil => simpa [updateEntries] using h
  | cons kv tl ih =>
    simpa [updateEntries] using ih (insertKey base kv.1 kv.2) (keysND_insertKey _ _ _ h)

theorem lookupKV_updateEntries_not_mem (base new : List (String × Json)) (k : String)
    (h : hasKey new k = false) :
    lookupKV (updateEntries base new) k = lookupKV base k := by
  induction new generalizing base with
  | nil => simp [updateEntries]
  | cons kv tl ih =>
    obtain ⟨k₀, v₀⟩ := kv
    simp only [hasKey, Bool.or_eq_false_iff, decide_eq_false_iff_not] at h
    simp only [updateEntries, List.foldl_cons] at *
    rw [ih _ h.2, lookupKV_insertKey_ne _ _ _ _ (fun hh => h.1 hh.symm)]

theorem lookupKV_updateEntries_mem (base new : List (String × Json)) (k : String) (v : Json)
    (hnd : keysND new = true) (h : lookupKV new k = some v) :
    lookupKV (updateEntries base new) k = some v := by
  induction new generalizing base with
  | nil => simp [lookupKV] at h
  | cons kv tl ih =>
    obtain ⟨k₀, v₀⟩ := kv
    simp only [keysND, Bool.and_eq_true, Bool.not_eq_true'] at hnd
    simp only [updateEntries, List.foldl_cons] at *
    by_cases h₀ : k₀ = k
    · subst h₀
      simp only [lookupKV, if_pos, Option.some.injEq] at h
      subst h
      show lookupKV (updateEntries (insertKey base k₀ v₀) tl) k₀ = some v₀
      rw [lookupKV_updateEntries_not_mem _ _ _ hnd.1, lookupKV_insertKey_self]
    · simp only [lookupKV, h₀, if_false] at h
      exact ih _ hnd.2 h

theorem updateEntries_of_disjoint (new : List (String × Json)) :
    ∀ acc : List (String × Json), (∀ k, hasKey acc k = true → hasKey new k = false) →
    keysND new = true → updateEntries acc new = acc ++ new := by
  induction new with
  | nil => intro acc _ _; simp [updateEntries]
  | cons kv tl ih =>
    intro acc hdisj hnd
    obtain ⟨k, v⟩ := kv
    simp only [keysND, Bool.and_eq_true, Bool.not_eq_true'] at hnd
    have hacc : hasKey acc k = false := by
      by_contra hc
      simp only [Bool.not_eq_false] at hc
      have := hdisj k hc
      simp [hasKey] at this
    have hstep : insertKey acc k v = acc ++ [(k, v)] := insertKey_of_not_hasKey _ _ _ hacc
    have hrec : updateEntries (acc ++ [(k, v)]) tl = (acc ++ [(k, v)]) ++ tl := by
      refine ih _ (fun k' hk' => ?_) hnd.2
      rw [hasKey_append] at hk'
      rcases Bool.or_eq_true_iff.mp hk' with h₁ | h₁
      · have := hdisj k' h₁
        simp only [hasKey, Bool.or_eq_false_iff] at this
        exact this.2
      · simp only [hasKey, Bool.or_eq_true_iff, decide_eq_true_eq] at h₁
        rcases h₁ with rfl | h₁
        · exact hnd.1
        · simp [hasKey] at h₁
    show updateEntries (insertKey acc k v) tl = acc ++ (k, v) :: tl
    rw [hstep, hrec]
    simp

theorem dedupKeys_eq_updateEntries (kvs : List (String × Json)) :
    dedupKeys kvs = updateEntries [] kvs := rfl

theorem dedupKeys_of_keysND (kvs : List (String × Json)) (h : keysND kvs = true) :
    dedupKeys kvs = kvs := by
  rw [dedupKeys_eq_updateEntries, updateEntries_of_disjoint kvs [] (fun k hk => by simp [hasKey] at hk) h]
  simp

theorem keysND_dedupKeys (kvs : List (String × Json)) : keysND (dedupKeys kvs) = true := by
  rw [dedupKeys_eq_updateEntries]
  exact keysND_updateEntries _ _ rfl

/-! ### Well-formed JSON values: every object has pairwise-distinct keys,
the invariant every value reachable from `json.load` satisfies. -/

mutual

def wfV : Json → Bool
  | Json.obj kvs => keysND kvs && wfM kvs
  | Json.arr xs => wfE xs
  | _ => true

def wfM : List (String × Json) → Bool
  | [] => true
  | (_, v) :: tl => wfV v && wfM tl

def wfE : List Json → Bool
  | [] => true
  | x :: tl => wfV x && wfE tl

end

theorem wfM_insertKey (m : List (String × Json)) (k : String) (v : Json)
    (hm : wfM m = true) (hv : wfV v = true) : wfM (insertKey m k v) = true := by
  induction m with
  | nil => simp [insertKey, wfM, hv]
  | cons kv tl ih =>
    obtain ⟨k₀, v₀⟩ := kv
    simp only [wfM, Bool.and_eq_true] at hm
    by_cases h₀ : k₀ = k
    · simp [insertKey, h₀, wfM, hv, hm.2]
    · simp [insertKey, h₀, wfM, hm.1, ih hm.2]

theorem wfM_updateEntries (base new : List (String × Json))
    (hb : wfM base = true) (hn : wfM new = true) : wfM (updateEntries base new) = true := by
  induction new generalizing base with
  | nil => simpa [updateEntries] using hb
  | cons kv tl ih =>
    obtain ⟨k, v⟩ := kv
    simp only [wfM, Bool.and_eq_true] at hn
    show wfM (updateEntries (insertKey base k v) tl) = true
    exact ih _ (wfM_insertKey _ _ _ hb hn.1) hn.2

theorem wfM_lookupKV (m : List (String × Json)) (k : String) (v : Json)
    (hm : wfM m = true) (h : lookupKV m k = some v) : wfV v = true := by
  induction m with
  | nil => simp [lookupKV] at h
  | cons kv tl ih =>
    obtain ⟨k₀, v₀⟩ := kv
    simp only [wfM, Bool.and_eq_true] at hm
    by_cases h₀ : k₀ = k
    · simp only [lookupKV, h₀, if_pos, Option.some.injEq] at h
      subst h
      exact hm.1
    · simp only [lookupKV, h₀, if_false] at h
      exact ih hm.2 h

theorem insertKey_insertKey (m : List (String × Json)) (k : String) (v v' : Json) :
    insertKey (insertKey m k v) k v' = insertKey m k v' := by
  induction m with
  | nil => simp [insertKey]
  | cons kv tl ih =>
    obtain ⟨k₀, v₀⟩ := kv
    by_cases h₀ : k₀ = k
    · simp [insertKey, h₀]
    · simp [insertKey, h₀, ih]

/-- Shape of the merge when the existing configuration is an object whose
`"mcpServers"` key is bound to an object. -/
theorem mergeConfig_obj_present (kvs servers : List (String × Json))
    (h : lookupKV kvs "mcpServers" = some (Json.obj servers)) :
    mergeConfig (Json.obj kvs) =
      Except.ok (Json.obj (insertKey kvs "mcpServers"
        (Json.obj (updateEntries servers newEntries)))) := by
  have hk : hasKey kvs "mcpServers" = true := by
    rw [hasKey_iff_lookupKV, h]; rfl
  simp [mergeConfig, pyContains, hk, pyGetItem, h, pyUpdate, pySetItem]

/-- Shape of the merge when the existing configuration is an object without
a `"mcpServers"` key: the key is appended, bound to exactly the new
entries. -/
theorem mergeConfig_obj_absent (kvs : List (String × Json))
    (h : lookupKV kvs "mcpServers" = none) :
    mergeConfig (Json.obj kvs) =
      Except.ok (Json.obj (kvs ++ [("mcpServers", Json.obj newEntries)])) := by
  have hk : hasKey kvs "mcpServers" = false := by
    rw [hasKey_iff_lookupKV, h]; rfl
  have hini : updateEntries ([] : List (String × Json)) newEntries = newEntries := by
    refine updateEntries_of_disjoint newEntries [] (fun k hk => by simp [hasKey] at hk) (by decide)
  have hget : lookupKV (insertKey kvs "mcpServers" (Json.obj [])) "mcpServers"
      = some (Json.obj []) := lookupKV_insertKey_self _ _ _
  simp only [mergeConfig, pyContains, hk, Bool.false_eq_true, if_false, pySetItem,
    pyGetItem, hget, pyUpdate, hini, insertKey_insertKey]
  rw [insertKey_of_not_hasKey _ _ _ hk]

/-- On any non-object top level, the merge raises `TypeError`: either the
membership test itself (`in` on a non-iterable) or the string subscript on
a list or string. -/
theorem mergeConfig_non_obj (j : Json) (h : ∀ kvs, j ≠ Json.obj kvs) :
    mergeConfig j = Except.error PyErr.typeError := by
  cases j with
  | null => rfl
  | bool b => rfl
  | num n => rfl
  | str s =>
    simp only [mergeConfig, pyContains]
    by_cases hb : (List.isPrefixOf "mcpServers".data s.data || containsSub "mcpServers".data s.data) = true
    · simp [hb, pyGetItem]
    · simp only [Bool.not_eq_true] at hb
      simp [hb, pySetItem]
  | arr xs =>
    simp only [mergeConfig, pyContains]
    by_cases hb : (xs.any (strEqJson "mcpServers")) = true
    · simp [hb, pyGetItem]
    · simp only [Bool.not_eq_true] at hb
      simp [hb, pySetItem]
  | obj kvs => exact absurd rfl (h kvs)

/-- The merge step preserves well-formedness. -/
theorem wfV_mergeConfig (j j' : Json) (hw : wfV j = true)
    (h : mergeConfig j = Except.ok j') : wfV j' = true := by
  by_cases hobj : ∃ kvs, j = Json.obj kvs
  · obtain ⟨kvs, rfl⟩ := hobj
    simp only [wfV, Bool.and_eq_true] at hw
    cases hmcp : lookupKV kvs "mcpServers" with
    | none =>
      rw [mergeConfig_obj_absent kvs hmcp] at h
      cases h
      have hk : hasKey kvs "mcpServers" = false := by
        rw [hasKey_iff_lookupKV, hmcp]; rfl
      rw [← insertKey_of_not_hasKey _ _ _ hk]
      simp only [wfV, Bool.and_eq_true]
      exact ⟨keysND_insertKey _ _ _ hw.1, wfM_insertKey _ _ _ hw.2 (by decide)⟩
    | some servers =>
      cases servers with
      | obj ss =>
        rw [mergeConfig_obj_present kvs ss hmcp] at h
        cases h
        simp only [wfV, Bool.and_eq_true]
        refine ⟨keysND_insertKey _ _ _ hw.1, wfM_insertKey _ _ _ hw.2 ?_⟩
        have hss : wfV (Json.obj ss) = true := wfM_lookupKV _ _ _ hw.2 hmcp
        simp only [wfV, Bool.and_eq_true] at hss ⊢
        exact ⟨keysND_updateEntries _ _ hss.1, wfM_updateEntries _ _ hss.2 (by decide)⟩
      | null =>
        have hk : hasKey kvs "mcpServers" = true := by rw [hasKey_iff_lookupKV, hmcp]; rfl
        simp [mergeConfig, pyContains, hk, pyGetItem, hmcp, pyUpdate] at h
      | bool b =>
        have hk : hasKey kvs "mcpServers" = true := by rw [hasKey_iff_lookupKV, hmcp]; rfl
        simp [mergeConfig, pyContains, hk, pyGetItem, hmcp, pyUpdate] at h
      | num n =>
        have hk : hasKey kvs "mcpServers" = true := by rw [hasKey_iff_lookupKV, hmcp]; rfl
        simp [mergeConfig, pyContains, hk, pyGetItem, hmcp, pyUpdate] at h
      | str s =>
        have hk : hasKey kvs "mcpServers" = true := by rw [hasKey_iff_lookupKV, hmcp]; rfl
        simp [mergeConfig, pyContains, hk, pyGetItem, hmcp, pyUpdate] at h
      | arr xs =>
        have hk : hasKey kvs "mcpServers" = true := by rw [hasKey_iff_lookupKV, hmcp]; rfl
        simp [mergeConfig, pyContains, hk, pyGetItem, hmcp, pyUpdate] at h
  · rw [mergeConfig_non_obj j (fun kvs hk => hobj ⟨kvs, hk⟩)] at h
    cases h

theorem wfM_dedupKeys (kvs : List (String × Json)) (h : wfM kvs = true) :
    wfM (dedupKeys kvs) = true := by
  rw [dedupKeys_eq_updateEntries]
  exact wfM_updateEntries _ _ rfl h

theorem parserWf (fuel : Nat) :
    (∀ inp j rest, parseValue fuel inp = some (j, rest) → wfV j = true) ∧
    (∀ inp kvs rest, parseMembers fuel inp = some (kvs, rest) → wfM kvs = true) ∧
    (∀ inp xs rest, parseElements fuel inp = some (xs, rest) → wfE xs = true) := by
  induction fuel with
  | zero =>
    refine ⟨?_, ?_, ?_⟩ <;> intro inp a rest h <;>
      simp [parseValue, parseMembers, parseElements] at h
  | succ f ih =>
    obtain ⟨ihV, ihM, ihE⟩ := ih
    refine ⟨?_, ?_, ?_⟩
    · intro inp j rest h
      simp only [parseValue] at h
      split at h
      · exact absurd h (by simp)
      split_ifs at h
      · rw [Option.map_eq_some'] at h
        obtain ⟨⟨kvs, r'⟩, hp, hinj⟩ := h
        cases hinj
        simp only [wfV, Bool.and_eq_true]
        exact ⟨keysND_dedupKeys _, wfM_dedupKeys _ (ihM _ _ _ hp)⟩
      · rw [Option.map_eq_some'] at h
        obtain ⟨⟨xs, r'⟩, hp, hinj⟩ := h
        cases hinj
        simpa only [wfV] using ihE _ _ _ hp
      · rw [Option.map_eq_some'] at h
        obtain ⟨⟨cs, r'⟩, _, hinj⟩ := h
        cases hinj
        rfl
      · split at h
        · cases h; rfl
        · exact absurd h (by simp)
      · split at h
        · cases h; rfl
        · exact absurd h (by simp)
      · split at h
        · cases h; rfl
        · exact absurd h (by simp)
      · rw [Option.map_eq_some'] at h
        obtain ⟨⟨m, r'⟩, _, hinj⟩ := h
        cases hinj
        rfl
      · rw [Option.map_eq_some'] at h
        obtain ⟨⟨m, r'⟩, _, hinj⟩ := h
        cases hinj
        rfl
    · intro inp kvs rest h
      simp only [parseMembers] at h
      split at h
      · exact absurd h (by simp)
      split_ifs at h
      · cases h; rfl
      · split at h
        · exact absurd h (by simp)
        next kcs r₁ hsb =>
          split at h
          · next r₂ heq =>
              split at h
              · exact absurd h (by simp)
              next v r₃ hv =>
                split at h
                · next r₄ heq₂ =>
                    split at h
                    · next tl r₅ hm =>
                        cases h
                        simp only [wfM, Bool.and_eq_true]
                        exact ⟨ihV _ _ _ hv, ihM _ _ _ hm⟩
                    · exact absurd h (by simp)
                · next r₄ heq₂ =>
                    cases h
                    simp only [wfM, Bool.and_eq_true]
                    exact ⟨ihV _ _ _ hv, trivial⟩
                · exact absurd h (by simp)
          · exact absurd h (by simp)
    · intro inp xs rest h
      simp only [parseElements] at h
      split at h
      · exact absurd h (by simp)
      split_ifs at h
      · cases h; rfl
      · split at h
        · exact absurd h (by simp)
        next v r₁ hv =>
          split at h
          · next r₂ heq =>
              split at h
              · next tl r₃ hm =>
                  cases h
                  simp only [wfE, Bool.and_eq_true]
                  exact ⟨ihV _ _ _ hv, ihE _ _ _ hm⟩
              · exact absurd h (by simp)
          · next r₂ heq =>
              cases h
              simp only [wfE, Bool.and_eq_true]
              exact ⟨ihV _ _ _ hv, trivial⟩
          · exact absurd h (by simp)

/-- Every successfully parsed document is well-formed. -/
theorem parseJson_wf (s : String) (j : Json) (h : parseJson s = some j) : wfV j = true := by
  simp only [parseJson] at h
  split at h
  · next p hp =>
      split at h
      · cases h
        exact (parserWf _).1 _ _ _ hp
      · exact absurd h (by simp)
  · exact absurd h (by simp)

/-! ### Round-trip support: whitespace, digits, escapes -/

/-- True when the list does not start with a decimal digit (so a digit run
before it cannot extend into it). -/
def headNotDig : List Char → Bool
  | [] => true
  | c :: _ => !(isDigitC c)

theorem skipWs_not_ws (c : Char) (l : List Char) (h : isWsC c = false) :
    skipWs (c :: l) = c :: l := by
  simp [skipWs, h]

theorem skipWs_ws_prepend (ws l : List Char) (h : ∀ c ∈ ws, isWsC c = true) :
    skipWs (ws ++ l) = skipWs l := by
  induction ws with
  | nil => rfl
  | cons c tl ih =>
    have hc : isWsC c = true := h c (by simp)
    simp only [List.cons_append, skipWs, hc, if_pos]
    exact ih (fun c' hc' => h c' (by simp [hc']))

theorem spaces_ws (n : Nat) : ∀ c ∈ spaces n, isWsC c = true := by
  intro c hc
  rw [spaces, List.mem_replicate] at hc
  rw [hc.2]
  decide

theorem skipWs_spaces (n : Nat) (l : List Char) : skipWs (spaces n ++ l) = skipWs l :=
  skipWs_ws_prepend _ _ (spaces_ws n)

theorem skipWs_newline (l : List Char) : skipWs ('\n' :: l) = skipWs l := by
  have : isWsC '\n' = true := by decide
  simp [skipWs, this]

theorem digVal_digitChar (d : Nat) (h : d < 10) : digVal (Nat.digitChar d) = d := by
  interval_cases d <;> decide

theorem isDigitC_digitChar (d : Nat) (h : d < 10) : isDigitC (Nat.digitChar d) = true := by
  interval_cases d <;> decide

theorem natChars_ne_nil (m : Nat) : natChars m ≠ [] := by
  by_cases h : m = 0
  · simp [natChars, h]
  · simp only [natChars, h, if_false]
    intro hc
    rw [List.map_eq_nil, List.reverse_eq_nil_iff] at hc
    exact h (Nat.digits_eq_nil_iff_eq_zero.mp hc)

theorem natChars_digit (m : Nat) : ∀ c ∈ natChars m, isDigitC c = true := by
  intro c hc
  by_cases h : m = 0
  · simp only [natChars, h, if_pos, List.mem_singleton] at hc
    rw [hc]; decide
  · simp only [natChars, h, if_false, List.mem_map, List.mem_reverse] at hc
    obtain ⟨d, hd, rfl⟩ := hc
    exact isDigitC_digitChar d (Nat.digits_lt_base (by norm_num) hd)

theorem foldl_digitChar_reverse (L : List Nat) (a : Nat) (h : ∀ d ∈ L, d < 10) :
    List.foldl (fun acc c => acc * 10 + digVal c) a ((L.map Nat.digitChar).reverse)
      = a * 10 ^ L.length + Nat.ofDigits 10 L := by
  induction L generalizing a with
  | nil => simp [Nat.ofDigits]
  | cons d tl ih =>
    have hd : d < 10 := h d (by simp)
    have htl : ∀ d' ∈ tl, d' < 10 := fun d' hd' => h d' (by simp [hd'])
    simp only [List.map_cons, List.reverse_cons, List.foldl_append, List.foldl_cons,
      List.foldl_nil, ih _ htl, Nat.ofDigits_cons, List.length_cons]
    rw [digVal_digitChar d hd]
    ring

theorem natChars_fold (m : Nat) :
    List.foldl (fun acc c => acc * 10 + digVal c) 0 (natChars m) = m := by
  by_cases h : m = 0
  · simp [natChars, h, digVal]
  · have : natChars m = ((Nat.digits 10 m).map Nat.digitChar).reverse := by
      simp [natChars, h, List.map_reverse]
    rw [this, foldl_digitChar_reverse _ _ (fun d hd => Nat.digits_lt_base (by norm_num) hd)]
    simp [Nat.ofDigits_digits]

theorem takeWhile_append_of_all (p : Char → Bool) (l rest : List Char)
    (h : ∀ c ∈ l, p c = true) (h₂ : ∀ c ∈ rest.head?, p c = false) :
    (l ++ rest).takeWhile p = l := by
  induction l with
  | nil =>
    cases rest with
    | nil => rfl
    | cons c tl => simp_all [List.takeWhile]
  | cons c tl ih => simp_all [List.takeWhile]

theorem dropWhile_append_of_all (p : Char → Bool) (l rest : List Char)
    (h : ∀ c ∈ l, p c = true) (h₂ : ∀ c ∈ rest.head?, p c = false) :
    (l ++ rest).dropWhile p = rest := by
  induction l with
  | nil =>
    cases rest with
    | nil => rfl
    | cons c tl => simp_all [List.dropWhile]
  | cons c tl ih => simp_all [List.dropWhile]

theorem parseNatChars_natChars (m : Nat) (rest : List Char) (h : headNotDig rest = true) :
    parseNatChars (natChars m ++ rest) = some (m, rest) := by
  have hhead : ∀ c ∈ rest.head?, isDigitC c = false := by
    intro c hc
    cases rest with
    | nil => simp at hc
    | cons c₀ tl =>
      simp only [List.head?] at hc
      simp only [Option.mem_def, Option.some.injEq] at hc
      subst hc
      simpa [headNotDig] using h
  have ht := takeWhile_append_of_all isDigitC _ rest (natChars_digit m) hhead
  have hd := dropWhile_append_of_all isDigitC _ rest (natChars_digit m) hhead
  simp only [parseNatChars, ht, hd]
  have hne := natChars_ne_nil m
  cases hnc : natChars m with
  | nil => exact absurd hnc hne
  | cons c tl =>
    simp only []
    rw [← hnc, natChars_fold]

theorem hexValC_hexDigitC (n : Nat) (h : n < 16) : hexValC (hexDigitC n) = some n := by
  interval_cases n <;> decide

theorem parseStringBody_escape (s rest : List Char) :
    parseStringBody (escapeStr s ++ quoteC :: rest) = some (s, rest) := by
  induction s with
  | nil =>
    rw [escapeStr, List.nil_append, parseStringBody.eq_def]
    simp
  | cons c tl ih =>
    by_cases hq : c = quoteC
    · subst hq
      have h₁ : ¬ (backC = quoteC) := by decide
      have h₂ : ¬ (quoteC = 'u') := by decide
      rw [escapeStr, escChar, if_pos rfl]
      rw [List.cons_append, List.cons_append, parseStringBody.eq_def]
      simp [h₁, h₂, ih]
    · by_cases hb : c = backC
      · subst hb
        have h₁ : ¬ (backC = quoteC) := by decide
        have h₂ : ¬ (backC = 'u') := by decide
        rw [escapeStr, escChar, if_neg h₁, if_pos rfl]
        rw [List.cons_append, List.cons_append, parseStringBody.eq_def]
        simp [h₁, h₂, ih]
      · by_cases hctl : c.toNat < 32
        · have h₁ : ¬ (backC = quoteC) := by decide
          have hdiv : c.toNat / 16 < 16 := by omega
          have hmod : c.toNat % 16 < 16 := Nat.mod_lt _ (by norm_num)
          have hz : hexValC '0' = some 0 := by decide
          have hof : Char.ofNat (c.toNat / 16 * 16 + c.toNat % 16) = c := by
            have he : c.toNat / 16 * 16 + c.toNat % 16 = c.toNat := by omega
            rw [he, Char.ofNat_toNat]
          rw [escapeStr, escChar, if_neg hq, if_neg hb, if_pos hctl]
          simp only [List.cons_append]
          rw [parseStringBody.eq_def]
          simp [h₁, hz, hexValC_hexDigitC _ hdiv, hexValC_hexDigitC _ hmod, hof, ih]
        · rw [escapeStr, escChar, if_neg hq, if_neg hb, if_neg hctl]
          simp only [List.cons_append, List.nil_append]
          rw [parseStringBody.eq_def]
          simp [hq, hb, ih]

theorem not_ws_of_digit (c : Char) (h : isDigitC c = true) : isWsC c = false := by
  by_contra hw
  rw [Bool.not_eq_false] at hw
  simp only [isWsC, Bool.or_eq_true, decide_eq_true_eq] at hw
  rcases hw with ((rfl | rfl) | rfl) | rfl <;> exact absurd h (by decide)

theorem skipWs_serVal (ind : Nat) (j : Json) (rest : List Char) :
    skipWs (serVal ind j ++ rest) = serVal ind j ++ rest := by
  cases j with
  | null => exact skipWs_not_ws _ _ (by decide)
  | bool b => cases b <;> exact skipWs_not_ws _ _ (by decide)
  | num n =>
    simp only [serVal, intChars]
    split_ifs with h
    · exact skipWs_not_ws _ _ (by decide)
    · cases hnc : natChars n.toNat with
      | nil => exact absurd hnc (natChars_ne_nil _)
      | cons c tl =>
        rw [List.cons_append]
        refine skipWs_not_ws _ _ (not_ws_of_digit c (natChars_digit n.toNat c ?_))
        rw [hnc]
        exact List.mem_cons_self _ _
  | str s => exact skipWs_not_ws _ _ (by decide)
  | arr xs => cases xs <;> exact skipWs_not_ws _ _ (by decide)
  | obj kvs => cases kvs <;> exact skipWs_not_ws _ _ (by decide)

-- Fuel needed by the reader for a given document (one unit per nesting
-- step of the mutual recursion).
mutual

def needV : Json → Nat
  | Json.obj kvs => needM kvs + 1
  | Json.arr xs => needE xs + 1
  | _ => 1

def needM : List (String × Json) → Nat
  | [] => 1
  | (_, v) :: tl => max (needV v) (needM tl) + 1

def needE : List Json → Nat
  | [] => 1
  | x :: tl => max (needV x) (needE tl) + 1

end

theorem needV_pos (j : Json) : 1 ≤ needV j := by
  cases j <;> simp [needV]

mutual

theorem needV_le_len : ∀ (j : Json) (ind : Nat), needV j ≤ (serVal ind j).length
  | Json.null, ind => by simp [needV, serVal]
  | Json.bool b, ind => by cases b <;> simp [needV, serVal]
  | Json.num n, ind => by
      simp only [needV, serVal, intChars]
      split_ifs with hn
      · simp [List.length_cons]
      · cases hnc : natChars n.toNat with
        | nil => exact absurd hnc (natChars_ne_nil _)
        | cons c tl => simp [hnc]
  | Json.str s, ind => by simp [needV, serVal]
  | Json.arr [], ind => by simp [needV, needE, serVal]
  | Json.arr (x :: tl), ind => by
      have h := needE_le_len (x :: tl) (ind + 2)
      simp only [needV, serVal, List.length_cons, List.length_append]
      omega
  | Json.obj [], ind => by simp [needV, needM, serVal]
  | Json.obj (kv :: tl), ind => by
      have h := needM_le_len (kv :: tl) (ind + 2)
      simp only [needV, serVal, List.length_cons, List.length_append]
      omega

theorem needM_le_len : ∀ (kvs : List (String × Json)) (ind : Nat),
    needM kvs ≤ (serMembers ind kvs).length + 2
  | [], ind => by simp [needM, serMembers]
  | [(k, v)], ind => by
      have h := needV_le_len v ind
      have h₂ := needV_pos v
      simp only [needM, needV, needM.eq_1, serMembers, List.length_append, List.length_cons]
      omega
  | (k, v) :: kv :: tl, ind => by
      have h := needV_le_len v ind
      have h₂ := needM_le_len (kv :: tl) ind
      have hstep : needM ((k, v) :: kv :: tl) = max (needV v) (needM (kv :: tl)) + 1 := rfl
      have hser : serMembers ind ((k, v) :: kv :: tl)
          = spaces ind ++ quoteC :: escapeStr k.data
              ++ quoteC :: ':' :: ' ' :: serVal ind v ++ ',' :: '\n' :: serMembers ind (kv :: tl) := rfl
      rw [hstep, hser]
      simp only [List.length_append, List.length_cons]
      omega

theorem needE_le_len : ∀ (xs : List Json) (ind : Nat),
    needE xs ≤ (serElems ind xs).length + 2
  | [], ind => by simp [needE, serElems]
  | [x], ind => by
      have h := needV_le_len x ind
      have h₂ := needV_pos x
      simp only [needE, needE.eq_1, serElems, List.length_append]
      omega
  | x :: y :: tl, ind => by
      have h := needV_le_len x ind
      have h₂ := needE_le_len (y :: tl) ind
      have hstep : needE (x :: y :: tl) = max (needV x) (needE (y :: tl)) + 1 := rfl
      have hser : serElems ind (x :: y :: tl)
          = spaces ind ++ serVal ind x ++ ',' :: '\n' :: serElems ind (y :: tl) := rfl
      rw [hstep, hser]
      simp only [List.length_append, List.length_cons]
      omega

end

theorem digit_ne (c : Char) (h : isDigitC c = true) :
    c ≠ '{' ∧ c ≠ '[' ∧ c ≠ quoteC ∧ c ≠ 'n' ∧ c ≠ 't' ∧ c ≠ 'f' ∧ c ≠ '-' :=
  ⟨fun hc => absurd (hc ▸ h) (by decide), fun hc => absurd (hc ▸ h) (by decide),
   fun hc => absurd (hc ▸ h) (by decide), fun hc => absurd (hc ▸ h) (by decide),
   fun hc => absurd (hc ▸ h) (by decide), fun hc => absurd (hc ▸ h) (by decide),
   fun hc => absurd (hc ▸ h) (by decide)⟩

theorem serVal_head_spec (ind : Nat) (j : Json) :
    ∃ c r, serVal ind j = c :: r ∧ (c = ']') = False := by
  cases j with
  | null => exact ⟨'n', _, rfl, by decide⟩
  | bool b =>
    cases b
    · exact ⟨'f', _, rfl, by decide⟩
    · exact ⟨'t', _, rfl, by decide⟩
  | str s => exact ⟨quoteC, _, rfl, by decide⟩
  | arr xs =>
    cases xs
    · exact ⟨'[', _, rfl, by decide⟩
    · exact ⟨'[', _, rfl, by decide⟩
  | obj kvs =>
    cases kvs
    · exact ⟨'{', _, rfl, by decide⟩
    · exact ⟨'{', _, rfl, by decide⟩
  | num n =>
    by_cases hn : n < 0
    · refine ⟨'-', natChars n.natAbs, ?_, by decide⟩
      simp [serVal, intChars, hn]
    · cases hnc : natChars n.toNat with
      | nil => exact absurd hnc (natChars_ne_nil _)
      | cons c tl =>
        have hcd : isDigitC c = true :=
          natChars_digit n.toNat c (by rw [hnc]; exact List.mem_cons_self _ _)
        refine ⟨c, tl, ?_, eq_false (fun hc => absurd (hc ▸ hcd) (by decide))⟩
        simp [serVal, intChars, hn, hnc]

theorem parserRT (fuel : Nat) :
    (∀ (j : Json) (ind : Nat) (ws rest : List Char),
       (∀ c ∈ ws, isWsC c = true) → wfV j = true → needV j ≤ fuel → headNotDig rest = true →
       parseValue fuel (ws ++ serVal ind j ++ rest) = some (j, rest)) ∧
    (∀ (kvs : List (String × Json)) (ind indc : Nat) (rest : List Char),
       wfM kvs = true → needM kvs ≤ fuel →
       parseMembers fuel ('\n' :: serMembers ind kvs ++ '\n' :: spaces indc ++ '}' :: rest)
         = some (kvs, rest)) ∧
    (∀ (xs : List Json) (ind indc : Nat) (rest : List Char),
       wfE xs = true → needE xs ≤ fuel →
       parseElements fuel ('\n' :: serElems ind xs ++ '\n' :: spaces indc ++ ']' :: rest)
         = some (xs, rest)) := by
  induction fuel with
  | zero =>
    refine ⟨?_, ?_, ?_⟩
    · intro j _ _ _ _ _ hneed _
      exact absurd hneed (by have := needV_pos j; omega)
    · intro kvs _ _ _ _ hneed
      exact absurd hneed (by cases kvs <;> simp [needM] <;> omega)
    · intro xs _ _ _ _ hneed
      exact absurd hneed (by cases xs <;> simp [needE] <;> omega)
  | succ f ih =>
    obtain ⟨ihV, ihM, ihE⟩ := ih
    refine ⟨?_, ?_, ?_⟩
    · intro j ind ws rest hws hwf hneed hnd
      have hskip : skipWs (ws ++ (serVal ind j ++ rest)) = serVal ind j ++ rest := by
        rw [skipWs_ws_prepend _ _ hws, skipWs_serVal]
      simp only [parseValue, List.append_assoc, hskip]
      cases j with
      | null => simp [serVal, show ('n' = quoteC) = False from by decide]
      | bool b =>
        cases b <;>
          simp [serVal, show ('t' = quoteC) = False from by decide,
            show ('f' = quoteC) = False from by decide]
      | str s =>
        have h₁ : ¬ (quoteC = '{') := by decide
        have h₂ : ¬ (quoteC = '[') := by decide
        have hmk : String.mk s.data = s := rfl
        simp only [serVal, List.cons_append, List.append_assoc, List.singleton_append,
          h₁, if_false, h₂, if_pos rfl]
        rw [parseStringBody_escape]
        simp [hmk]
      | num n =>
        by_cases hn : n < 0
        · have hne := parseNatChars_natChars n.natAbs rest hnd
          simp only [serVal, intChars, hn, if_pos, List.cons_append]
          simp [hne, show ('-' = quoteC) = False from by decide]
          rw [abs_of_neg hn, neg_neg]
        · cases hnc : natChars n.toNat with
          | nil => exact absurd hnc (natChars_ne_nil _)
          | cons c tl =>
            have hcd : isDigitC c = true := natChars_digit n.toNat c (by rw [hnc]; exact List.mem_cons_self _ _)
            obtain ⟨d₁, d₂, d₃, d₄, d₅, d₆, d₇⟩ := digit_ne c hcd
            have hne := parseNatChars_natChars n.toNat rest hnd
            rw [hnc] at hne
            have hval : ((n.toNat : Nat) : Int) = n := by omega
            simp only [List.cons_append] at hne
            simp only [serVal, intChars, hn, if_false, hnc, List.cons_append,
              d₁, d₂, d₃, d₄, d₅, d₆, d₇, if_false, hcd, if_pos]
            simp [hne, hval]
      | arr xs =>
        cases xs with
        | nil =>
          have hf : 1 ≤ f := by
            simp only [needV, needE] at hneed
            omega
          cases f with
          | zero => omega
          | succ f₂ =>
            have hsk : skipWs ( ']' :: rest) = ']' :: rest := skipWs_not_ws _ _ (by decide)
            simp [serVal, parseElements, hsk, dedupKeys]
        | cons x tl =>
          have hun : wfE (x :: tl) = true := by simpa [wfV] using hwf
          have hneedE : needE (x :: tl) ≤ f := by
            simp only [needV] at hneed
            omega
          have hm := ihE (x :: tl) (ind + 2) ind rest hun hneedE
          simp only [List.cons_append, List.append_assoc] at hm
          simp only [serVal, List.cons_append, List.append_assoc, List.singleton_append]
          simp [hm]
      | obj kvs =>
        cases kvs with
        | nil =>
          have hf : 1 ≤ f := by
            simp only [needV, needM] at hneed
            omega
          cases f with
          | zero => omega
          | succ f₂ =>
            have hsk : skipWs ( '}' :: rest) = '}' :: rest := skipWs_not_ws _ _ (by decide)
            simp [serVal, parseMembers, hsk, dedupKeys]
        | cons kv tl =>
          simp only [wfV, Bool.and_eq_true] at hwf
          have hneedM : needM (kv :: tl) ≤ f := by
            simp only [needV] at hneed
            omega
          have hm := ihM (kv :: tl) (ind + 2) ind rest hwf.2 hneedM
          have hded : dedupKeys (kv :: tl) = kv :: tl := dedupKeys_of_keysND _ hwf.1
          simp only [List.cons_append, List.append_assoc] at hm
          simp only [serVal, List.cons_append, List.append_assoc, List.singleton_append]
          simp [hm, hded]
    · intro kvs ind indc rest hwf hneed
      cases kvs with
      | nil =>
        have hsk : skipWs ('\n' :: serMembers ind [] ++ '\n' :: spaces indc ++ '}' :: rest)
            = '}' :: rest := by
          simp only [serMembers, List.nil_append, List.cons_append]
          rw [skipWs_newline, skipWs_newline, skipWs_spaces, skipWs_not_ws _ _ (by decide)]
        simp only [parseMembers, hsk]
        simp
      | cons kv tl =>
        obtain ⟨k, v⟩ := kv
        simp only [wfM, Bool.and_eq_true] at hwf
        cases tl with
        | nil =>
          have hneedv : needV v ≤ f := by
            simp only [needM] at hneed
            omega
          have htail : headNotDig ('\n' :: (spaces indc ++ '}' :: rest)) = true := rfl
          have hx := ihV v ind [' '] ('\n' :: (spaces indc ++ '}' :: rest))
            (by intro c hc; simp at hc; rw [hc]; decide) hwf.1 hneedv htail
          simp only [List.cons_append, List.append_assoc, List.singleton_append,
            List.nil_append] at hx
          have hsk : skipWs ('\n' :: serMembers ind [(k, v)] ++ '\n' :: spaces indc ++ '}' :: rest)
              = quoteC :: (escapeStr k.data ++ quoteC :: ':' :: ' ' :: (serVal ind v
                  ++ '\n' :: (spaces indc ++ '}' :: rest))) := by
            simp only [serMembers, List.cons_append, List.append_assoc, List.nil_append]
            rw [skipWs_newline, skipWs_spaces, skipWs_not_ws _ _ (by decide)]
          have hpsb := parseStringBody_escape k.data
              (':' :: ' ' :: (serVal ind v ++ '\n' :: (spaces indc ++ '}' :: rest)))
          have hskc : skipWs (':' :: ' ' :: (serVal ind v ++ '\n' :: (spaces indc ++ '}' :: rest)))
              = ':' :: ' ' :: (serVal ind v ++ '\n' :: (spaces indc ++ '}' :: rest)) :=
            skipWs_not_ws _ _ (by decide)
          have hske : skipWs ('\n' :: (spaces indc ++ '}' :: rest)) = '}' :: rest := by
            rw [skipWs_newline, skipWs_spaces, skipWs_not_ws _ _ (by decide)]
          have hmk : String.mk k.data = k := rfl
          simp only [parseMembers, hsk, show (quoteC = '}') = False from by decide, if_false,
            if_pos rfl, if_true, hpsb, hskc, hx, hske, hmk]
        | cons kv₂ tl₂ =>
          have hneedv : needV v ≤ f := by
            simp only [needM] at hneed
            omega
          have hneedm : needM (kv₂ :: tl₂) ≤ f := by
            have hstep : needM ((k, v) :: kv₂ :: tl₂)
                = max (needV v) (needM (kv₂ :: tl₂)) + 1 := rfl
            rw [hstep] at hneed
            omega
          have hrec := ihM (kv₂ :: tl₂) ind indc rest hwf.2 hneedm
          simp only [List.cons_append, List.append_assoc] at hrec
          have htail : headNotDig (',' :: '\n' :: (serMembers ind (kv₂ :: tl₂)
              ++ '\n' :: (spaces indc ++ '}' :: rest))) = true := rfl
          have hx := ihV v ind [' '] (',' :: '\n' :: (serMembers ind (kv₂ :: tl₂)
              ++ '\n' :: (spaces indc ++ '}' :: rest)))
            (by intro c hc; simp at hc; rw [hc]; decide) hwf.1 hneedv htail
          simp only [List.cons_append, List.append_assoc, List.singleton_append,
            List.nil_append] at hx
          have hsk : skipWs ('\n' :: serMembers ind ((k, v) :: kv₂ :: tl₂)
                ++ '\n' :: spaces indc ++ '}' :: rest)
              = quoteC :: (escapeStr k.data ++ quoteC :: ':' :: ' ' :: (serVal ind v
                  ++ ',' :: '\n' :: (serMembers ind (kv₂ :: tl₂)
                    ++ '\n' :: (spaces indc ++ '}' :: rest)))) := by
            have hser : serMembers ind ((k, v) :: kv₂ :: tl₂)
                = spaces ind ++ quoteC :: escapeStr k.data
                    ++ quoteC :: ':' :: ' ' :: serVal ind v
                    ++ ',' :: '\n' :: serMembers ind (kv₂ :: tl₂) := rfl
            rw [hser]
            simp only [List.cons_append, List.append_assoc]
            rw [skipWs_newline, skipWs_spaces, skipWs_not_ws _ _ (by decide)]
          have hpsb := parseStringBody_escape k.data
              (':' :: ' ' :: (serVal ind v ++ ',' :: '\n' :: (serMembers ind (kv₂ :: tl₂)
                ++ '\n' :: (spaces indc ++ '}' :: rest))))
          have hskc := skipWs_not_ws ':' (' ' :: (serVal ind v
              ++ ',' :: '\n' :: (serMembers ind (kv₂ :: tl₂)
                ++ '\n' :: (spaces indc ++ '}' :: rest)))) (by decide)
          have hskcomma := skipWs_not_ws ','  ('\n' :: (serMembers ind (kv₂ :: tl₂)
              ++ '\n' :: (spaces indc ++ '}' :: rest))) (by decide)
          have hmk : String.mk k.data = k := rfl
          simp only [parseMembers, hsk, show (quoteC = '}') = False from by decide, if_false,
            if_pos rfl, if_true, hpsb, hskc, hx, hskcomma, hrec, hmk]
    · intro xs ind indc rest hwf hneed
      cases xs with
      | nil =>
        have hsk : skipWs ('\n' :: serElems ind [] ++ '\n' :: spaces indc ++ ']' :: rest)
            = ']' :: rest := by
          simp only [serElems, List.nil_append, List.cons_append]
          rw [skipWs_newline, skipWs_newline, skipWs_spaces, skipWs_not_ws _ _ (by decide)]
        simp only [parseElements, hsk]
        simp
      | cons x tl =>
        simp only [wfE, Bool.and_eq_true] at hwf
        obtain ⟨c, r, hser, hcne⟩ := serVal_head_spec ind x
        cases tl with
        | nil =>
          have hneedv : needV x ≤ f := by
            simp only [needE] at hneed
            omega
          have htail : headNotDig ('\n' :: (spaces indc ++ ']' :: rest)) = true := rfl
          have hx := ihV x ind [] ('\n' :: (spaces indc ++ ']' :: rest))
            (by intro c hc; simp at hc) hwf.1 hneedv htail
          simp only [List.nil_append, List.cons_append, List.append_assoc] at hx
          have hsk : skipWs ('\n' :: serElems ind [x] ++ '\n' :: spaces indc ++ ']' :: rest)
              = serVal ind x ++ '\n' :: (spaces indc ++ ']' :: rest) := by
            simp only [serElems, List.cons_append, List.append_assoc, List.nil_append]
            rw [skipWs_newline, skipWs_spaces]
            exact skipWs_serVal ind x _
          have hske : skipWs ('\n' :: (spaces indc ++ ']' :: rest)) = ']' :: rest := by
            rw [skipWs_newline, skipWs_spaces, skipWs_not_ws _ _ (by decide)]
          rw [hser] at hsk hx
          simp only [List.cons_append] at hx
          simp only [parseElements, hsk]
          simp only [List.cons_append]
          simp only [hcne, if_false, if_true, hx, hske]
        | cons y tl₂ =>
          have hneedv : needV x ≤ f := by
            have hstep : needE (x :: y :: tl₂) = max (needV x) (needE (y :: tl₂)) + 1 := rfl
            rw [hstep] at hneed
            omega
          have hneede : needE (y :: tl₂) ≤ f := by
            have hstep : needE (x :: y :: tl₂) = max (needV x) (needE (y :: tl₂)) + 1 := rfl
            rw [hstep] at hneed
            omega
          have hrec := ihE (y :: tl₂) ind indc rest hwf.2 hneede
          simp only [List.cons_append, List.append_assoc] at hrec
          have htail : headNotDig (',' :: '\n' :: (serElems ind (y :: tl₂)
              ++ '\n' :: (spaces indc ++ ']' :: rest))) = true := rfl
          have hx := ihV x ind [] (',' :: '\n' :: (serElems ind (y :: tl₂)
              ++ '\n' :: (spaces indc ++ ']' :: rest)))
            (by intro c hc; simp at hc) hwf.1 hneedv htail
          simp only [List.nil_append, List.cons_append, List.append_assoc] at hx
          have hsk : skipWs ('\n' :: serElems ind (x :: y :: tl₂)
                ++ '\n' :: spaces indc ++ ']' :: rest)
              = serVal ind x ++ ',' :: '\n' :: (serElems ind (y :: tl₂)
                  ++ '\n' :: (spaces indc ++ ']' :: rest)) := by
            have hserE : serElems ind (x :: y :: tl₂)
                = spaces ind ++ serVal ind x ++ ',' :: '\n' :: serElems ind (y :: tl₂) := rfl
            rw [hserE]
            simp only [List.cons_append, List.append_assoc]
            rw [skipWs_newline, skipWs_spaces]
            exact skipWs_serVal ind x _
          have hskcomma := skipWs_not_ws ','  ('\n' :: (serElems ind (y :: tl₂)
              ++ '\n' :: (spaces indc ++ ']' :: rest))) (by decide)
          rw [hser] at hsk hx
          simp only [List.cons_append] at hx
          simp only [parseElements, hsk]
          simp only [List.cons_append]
          simp only [hcne, if_false, if_true, hx, hskcomma, hrec]

/-- Serialize-then-parse is the identity on well-formed configurations. -/
theorem parseJson_serialize (j : Json) (h : wfV j = true) :
    parseJson (serialize j) = some j := by
  have hneed : needV j ≤ (serVal 0 j).length + 1 := le_trans (needV_le_len j 0) (Nat.le_succ _)
  have hrt := (parserRT ((serVal 0 j).length + 1)).1 j 0 [] [] (by intro c hc; simp at hc)
    h hneed rfl
  simp only [List.nil_append, List.append_nil] at hrt
  have hdata : (serialize j).data = serVal 0 j := rfl
  simp only [parseJson, hdata, hrt]
  rfl

/-- When the existing object binds `"mcpServers"` to a non-object, the
`.update` call raises `AttributeError`. -/
theorem mergeConfig_obj_mcp_non_obj (kvs : List (String × Json)) (sv : Json)
    (h : lookupKV kvs "mcpServers" = some sv) (hno : ∀ ss, sv ≠ Json.obj ss) :
    mergeConfig (Json.obj kvs) = Except.error PyErr.attributeError := by
  have hk : hasKey kvs "mcpServers" = true := by
    rw [hasKey_iff_lookupKV, h]; rfl
  cases sv with
  | obj ss => exact absurd rfl (hno ss)
  | null => simp [mergeConfig, pyContains, hk, pyGetItem, h, pyUpdate]
  | bool b => simp [mergeConfig, pyContains, hk, pyGetItem, h, pyUpdate]
  | num n => simp [mergeConfig, pyContains, hk, pyGetItem, h, pyUpdate]
  | str s => simp [mergeConfig, pyContains, hk, pyGetItem, h, pyUpdate]
  | arr xs => simp [mergeConfig, pyContains, hk, pyGetItem, h, pyUpdate]

/-- Every configuration the script is about to write is well-formed. -/
theorem wfV_mergedConfig (fs : FS) (cfg : Json) (warned : Bool)
    (h : mergedConfig fs = Except.ok (cfg, warned)) : wfV cfg = true := by
  unfold mergedConfig at h
  split at h
  · cases h
    decide
  · split at h
    · exact absurd h (by simp)
    · split at h
      · cases h
        decide
      · next existing hparse =>
          cases hmerge : mergeConfig existing with
          | error e =>
              rw [hmerge] at h
              exact absurd h (by simp)
          | ok j =>
              rw [hmerge] at h
              simp at h
              obtain ⟨rfl, rfl⟩ := h
              exact wfV_mergeConfig existing j (parseJson_wf _ _ hparse) hmerge

/-- Claim C1: for every pre-existing configuration object, if the
recognized key `"mcpServers"` is bound to an object then after the merge it
contains every entry of `newEntries` and every pre-existing entry under a
non-colliding identifier unchanged; if the recognized key is absent, it is
initialized and the result under it is exactly `newEntries`. -/
theorem claim1_merge_invariants (kvs : List (String × Json)) :
    (∀ servers, lookupKV kvs "mcpServers" = some (Json.obj servers) →
       ∃ merged, mergeConfig (Json.obj kvs) = Except.ok (Json.obj merged) ∧
         ∃ servers₂, lookupKV merged "mcpServers" = some (Json.obj servers₂) ∧
           (∀ k v, lookupKV newEntries k = some v → lookupKV servers₂ k = some v) ∧
           (∀ k v, hasKey newEntries k = false → lookupKV servers k = some v →
              lookupKV servers₂ k = some v)) ∧
    (lookupKV kvs "mcpServers" = none →
       ∃ merged, mergeConfig (Json.obj kvs) = Except.ok (Json.obj merged) ∧
         lookupKV merged "mcpServers" = some (Json.obj newEntries)) := by
  constructor
  · intro servers hs
    refine ⟨_, mergeConfig_obj_present kvs servers hs, updateEntries servers newEntries,
      lookupKV_insertKey_self _ _ _, ?_, ?_⟩
    · intro k v hv
      exact lookupKV_updateEntries_mem _ _ _ _ (by decide) hv
    · intro k v hk hv
      rw [lookupKV_updateEntries_not_mem _ _ _ hk]
      exact hv
  · intro habs
    have hk : hasKey kvs "mcpServers" = false := by
      rw [hasKey_iff_lookupKV, habs]; rfl
    refine ⟨_, mergeConfig_obj_absent kvs habs, ?_⟩
    rw [← insertKey_of_not_hasKey _ _ (Json.obj newEntries) hk]
    exact lookupKV_insertKey_self _ _ _

/-- Witness for C1 at a concrete configuration: a present recognized key
with a `foo` entry, and an absent recognized key. -/
theorem claim1_witness :
    (∃ merged, mergeConfig (Json.obj [("mcpServers", Json.obj [("foo", Json.null)]),
          ("other", Json.bool true)]) = Except.ok (Json.obj merged) ∧
       ∃ servers₂, lookupKV merged "mcpServers" = some (Json.obj servers₂) ∧
         (∀ k v, lookupKV newEntries k = some v → lookupKV servers₂ k = some v) ∧
         (∀ k v, hasKey newEntries k = false → lookupKV [("foo", Json.null)] k = some v →
            lookupKV servers₂ k = some v)) ∧
    (∃ merged, mergeConfig (Json.obj [("other", Json.bool true)])
        = Except.ok (Json.obj merged) ∧
       lookupKV merged "mcpServers" = some (Json.obj newEntries)) :=
  ⟨(claim1_merge_invariants [("mcpServers", Json.obj [("foo", Json.null)]),
      ("other", Json.bool true)]).1 [("foo", Json.null)] rfl,
   (claim1_merge_invariants [("other", Json.bool true)]).2 rfl⟩

/-- Claim C2: whenever the existing file content fails to parse as JSON,
the operation succeeds with a warning and writes exactly
`{"mcpServers": newEntries}` (the serialized default configuration). -/
theorem claim2_corruption_recovery (s : String) (h : parseJson s = none) :
    createClaudeConfig (plainFS (some s)) = Except.ok (serialize defaultConfig, true) := by
  simp [createClaudeConfig, mergedConfig, plainFS, h]

/-- Witness for C2 at the literal content `not valid json`. -/
theorem claim2_witness :
    parseJson "not valid json" = none ∧
    createClaudeConfig (plainFS (some "not valid json"))
      = Except.ok (serialize defaultConfig, true) :=
  ⟨rfl, claim2_corruption_recovery "not valid json" rfl⟩

/-- Claim C3: with no existing file the configuration written is exactly
`{"mcpServers": newEntries}`: one top-level key holding precisely the two
default entries, and no warning. -/
theorem claim3_fresh_creation :
    createClaudeConfig (plainFS none)
      = Except.ok (serialize (Json.obj [("mcpServers", Json.obj newEntries)]), false) ∧
    List.map Prod.fst newEntries = ["authentik-full", "authentik-diag"] :=
  ⟨rfl, rfl⟩

/-- Claim C4: an existing entry whose identifier collides with one of the
new entries is overwritten: the merged registry maps it to the value from
`newEntries`. -/
theorem claim4_overwrite (kvs servers : List (String × Json)) (k : String)
    (vOld vNew : Json)
    (hs : lookupKV kvs "mcpServers" = some (Json.obj servers))
    (hold : lookupKV servers k = some vOld)
    (hnew : lookupKV newEntries k = some vNew) :
    ∃ merged servers₂, mergeConfig (Json.obj kvs) = Except.ok (Json.obj merged) ∧
      lookupKV merged "mcpServers" = some (Json.obj servers₂) ∧
      lookupKV servers₂ k = some vNew :=
  ⟨_, updateEntries servers newEntries, mergeConfig_obj_present kvs servers hs,
   lookupKV_insertKey_self _ _ _,
   lookupKV_updateEntries_mem _ _ _ _ (by decide) hnew⟩

/-- Witness for C4: an existing `authentik-full` entry bound to a marker
value is replaced by the default entry. -/
theorem claim4_witness :
    ∃ merged servers₂,
      mergeConfig (Json.obj [("mcpServers", Json.obj [("authentik-full", Json.str "A")])])
        = Except.ok (Json.obj merged) ∧
      lookupKV merged "mcpServers" = some (Json.obj servers₂) ∧
      lookupKV servers₂ "authentik-full"
        = some (Json.obj
            [ ("command", Json.str "uvx"),
              ("args", Json.arr [Json.str "authentik-mcp"]),
              ("env", Json.obj
                [ ("AUTHENTIK_BASE_URL", Json.str "https://your-authentik-instance.com"),
                  ("AUTHENTIK_TOKEN", Json.str "your-api-token-here") ]) ]) :=
  claim4_overwrite [("mcpServers", Json.obj [("authentik-full", Json.str "A")])]
    [("authentik-full", Json.str "A")] "authentik-full" (Json.str "A") _ rfl rfl rfl

set_option maxRecDepth 20000 in
/-- Claim C5: on a fresh target the operation is idempotent: the second
run reads back what the first wrote and writes the identical text. -/
theorem claim5_idempotent :
    ∃ c₁ : String, createClaudeConfig (plainFS none) = Except.ok (c₁, false) ∧
      createClaudeConfig (plainFS (some c₁)) = Except.ok (c₁, false) :=
  ⟨serialize defaultConfig, rfl, rfl⟩

/-- Claim C6: whatever the run wrote parses back to exactly the in-memory
configuration that was serialized. -/
theorem claim6_roundtrip (fs : FS) (content : String) (warned : Bool)
    (h : createClaudeConfig fs = Except.ok (content, warned)) :
    ∃ cfg, mergedConfig fs = Except.ok (cfg, warned) ∧ content = serialize cfg ∧
      parseJson content = some cfg := by
  unfold createClaudeConfig at h
  split at h
  · exact absurd h (by simp)
  · cases hm : mergedConfig fs with
    | error e =>
      rw [hm] at h
      exact absurd h (by simp)
    | ok p =>
      obtain ⟨cfg, w⟩ := p
      rw [hm] at h
      simp only [] at h
      split at h
      · exact absurd h (by simp)
      · simp only [Except.ok.injEq, Prod.mk.injEq] at h
        obtain ⟨h₁, h₂⟩ := h
        refine ⟨cfg, ?_, h₁.symm, ?_⟩
        · rw [h₂]
        · rw [← h₁]
          exact parseJson_serialize cfg (wfV_mergedConfig fs cfg w hm)

/-- Witness for C6 at the fresh-target run. -/
theorem claim6_witness :
    ∃ cfg, mergedConfig (plainFS none) = Except.ok (cfg, false) ∧
      serialize defaultConfig = serialize cfg ∧
      parseJson (serialize defaultConfig) = some cfg :=
  claim6_roundtrip (plainFS none) (serialize defaultConfig) false rfl

/-- Claim C7: the default entries are a fixed mapping of exactly the two
servers `authentik-full` and `authentik-diag`, each with its launch
command, argument list, and exactly the two environment placeholders with
their literal values. -/
theorem claim7_default_entries :
    List.map Prod.fst newEntries = ["authentik-full", "authentik-diag"] ∧
    lookupKV newEntries "authentik-full" = some (Json.obj
      [ ("command", Json.str "uvx"),
        ("args", Json.arr [Json.str "authentik-mcp"]),
        ("env", Json.obj
          [ ("AUTHENTIK_BASE_URL", Json.str "https://your-authentik-instance.com"),
            ("AUTHENTIK_TOKEN", Json.str "your-api-token-here") ]) ]) ∧
    lookupKV newEntries "authentik-diag" = some (Json.obj
      [ ("command", Json.str "uvx"),
        ("args", Json.arr [Json.str "authentik-diag-mcp"]),
        ("env", Json.obj
          [ ("AUTHENTIK_BASE_URL", Json.str "https://your-authentik-instance.com"),
            ("AUTHENTIK_TOKEN", Json.str "your-readonly-token-here") ]) ]) :=
  ⟨rfl, rfl, rfl⟩

/-- Claim C8: every filesystem fault (directory creation, read, write)
propagates as an unhandled `OSError` leaving the file untouched, while a
JSON parse failure of the existing file is the one locally handled error:
the run still succeeds with a warning. -/
theorem claim8_error_propagation (fs : FS) :
    (fs.mkdirFault = true →
       createClaudeConfig fs = Except.error PyErr.osError ∧ finalFile fs = fs.file) ∧
    (fs.mkdirFault = false → fs.readFault = true → (∃ s, fs.file = some s) →
       createClaudeConfig fs = Except.error PyErr.osError ∧ finalFile fs = fs.file) ∧
    (fs.mkdirFault = false → fs.writeFault = true →
       (∃ cfg w, mergedConfig fs = Except.ok (cfg, w)) →
       createClaudeConfig fs = Except.error PyErr.osError ∧ finalFile fs = fs.file) ∧
    (fs.mkdirFault = false → fs.readFault = false → fs.writeFault = false →
       ∀ s, fs.file = some s → parseJson s = none →
       createClaudeConfig fs = Except.ok (serialize defaultConfig, true)) := by
  refine ⟨?_, ?_, ?_, ?_⟩
  · intro hmk
    constructor
    · simp [createClaudeConfig, hmk]
    · simp [finalFile, createClaudeConfig, hmk]
  · intro hmk hrd hex
    obtain ⟨s, hs⟩ := hex
    have hm : mergedConfig fs = Except.error PyErr.osError := by
      simp [mergedConfig, hs, hrd]
    constructor
    · simp [createClaudeConfig, hmk, hm]
    · simp [finalFile, createClaudeConfig, hmk, hm]
  · intro hmk hwr hex
    obtain ⟨cfg, w, hm⟩ := hex
    constructor
    · simp [createClaudeConfig, hmk, hm, hwr]
    · simp [finalFile, createClaudeConfig, hmk, hm, hwr]
  · intro hmk hrd hwr s hs hp
    have hm : mergedConfig fs = Except.ok (defaultConfig, true) := by
      simp [mergedConfig, hs, hrd, hp]
    simp [createClaudeConfig, hmk, hm, hwr]

/-- Witness for C8 at concrete fault configurations. -/
theorem claim8_witness :
    (createClaudeConfig ⟨none, true, false, false⟩ = Except.error PyErr.osError ∧
       finalFile ⟨none, true, false, false⟩ = none) ∧
    (createClaudeConfig ⟨some "x", false, true, false⟩ = Except.error PyErr.osError ∧
       finalFile ⟨some "x", false, true, false⟩ = some "x") ∧
    (createClaudeConfig ⟨none, false, false, true⟩ = Except.error PyErr.osError ∧
       finalFile ⟨none, false, false, true⟩ = none) ∧
    createClaudeConfig ⟨some "oops", false, false, false⟩
      = Except.ok (serialize defaultConfig, true) :=
  ⟨(claim8_error_propagation ⟨none, true, false, false⟩).1 rfl,
   (claim8_error_propagation ⟨some "x", false, true, false⟩).2.1 rfl rfl ⟨"x", rfl⟩,
   (claim8_error_propagation ⟨none, false, false, true⟩).2.2.1 rfl rfl
     ⟨defaultConfig, false, rfl⟩,
   (claim8_error_propagation ⟨some "oops", false, false, false⟩).2.2.2 rfl rfl rfl
     "oops" rfl rfl⟩

/-- Claim C9: if the existing file parses to a non-object top level, the
merge raises an unhandled `TypeError` and nothing is written: the file
keeps its prior content. -/
theorem claim9_non_object_top_level (s : String) (j : Json)
    (hp : parseJson s = some j) (hno : ∀ kvs, j ≠ Json.obj kvs) :
    createClaudeConfig (plainFS (some s)) = Except.error PyErr.typeError ∧
    finalFile (plainFS (some s)) = some s := by
  have hm : mergedConfig ⟨some s, false, false, false⟩ = Except.error PyErr.typeError := by
    simp [mergedConfig, hp, mergeConfig_non_obj j hno]
  constructor
  · simp [createClaudeConfig, plainFS, hm]
  · simp [finalFile, createClaudeConfig, plainFS, hm]

/-- Witness for C9 at a JSON array top level. -/
theorem claim9_witness :
    parseJson "[1, 2]" = some (Json.arr [Json.num 1, Json.num 2]) ∧
    createClaudeConfig (plainFS (some "[1, 2]")) = Except.error PyErr.typeError ∧
    finalFile (plainFS (some "[1, 2]")) = some "[1, 2]" :=
  ⟨rfl, claim9_non_object_top_level "[1, 2]" (Json.arr [Json.num 1, Json.num 2]) rfl
    (fun kvs h => Json.noConfusion h)⟩

/-- Claim C10: the merge only touches the recognized key: every other
top-level binding of the pre-existing object is present unchanged in the
result. -/
theorem claim10_frame (kvs : List (String × Json)) (merged : Json)
    (h : mergeConfig (Json.obj kvs) = Except.ok merged) :
    ∃ res, merged = Json.obj res ∧
      ∀ k v, k ≠ "mcpServers" → lookupKV kvs k = some v → lookupKV res k = some v := by
  cases hmcp : lookupKV kvs "mcpServers" with
  | none =>
    rw [mergeConfig_obj_absent kvs hmcp] at h
    simp only [Except.ok.injEq] at h
    subst h
    refine ⟨_, rfl, ?_⟩
    intro k v hk hv
    exact lookupKV_append_left _ _ _ _ hv
  | some sv =>
    cases sv with
    | obj servers =>
      rw [mergeConfig_obj_present kvs servers hmcp] at h
      simp only [Except.ok.injEq] at h
      subst h
      refine ⟨_, rfl, ?_⟩
      intro k v hk hv
      rw [lookupKV_insertKey_ne _ _ _ _ hk]
      exact hv
    | null =>
      rw [mergeConfig_obj_mcp_non_obj kvs _ hmcp (fun ss hh => Json.noConfusion hh)] at h
      exact absurd h (by simp)
    | bool b =>
      rw [mergeConfig_obj_mcp_non_obj kvs _ hmcp (fun ss hh => Json.noConfusion hh)] at h
      exact absurd h (by simp)
    | num n =>
      rw [mergeConfig_obj_mcp_non_obj kvs _ hmcp (fun ss hh => Json.noConfusion hh)] at h
      exact absurd h (by simp)
    | str s =>
      rw [mergeConfig_obj_mcp_non_obj kvs _ hmcp (fun ss hh => Json.noConfusion hh)] at h
      exact absurd h (by simp)
    | arr xs =>
      rw [mergeConfig_obj_mcp_non_obj kvs _ hmcp (fun ss hh => Json.noConfusion hh)] at h
      exact absurd h (by simp)

/-- Witness for C10: the sibling key `other` survives the merge with its
value. -/
theorem claim10_witness :
    ∃ res, Json.obj [("other", Json.bool true), ("mcpServers", Json.obj newEntries)]
        = Json.obj res ∧
      ∀ k v, k ≠ "mcpServers" →
        lookupKV [("other", Json.bool true), ("mcpServers", Json.obj [])] k = some v →
        lookupKV res k = some v :=
  claim10_frame [("other", Json.bool true), ("mcpServers", Json.obj [])] _ rfl
